import Mathlib

/-!
Verification of the speculum Terraform provider network mirror.

Shallow embedding of the Go sources:
  internal/mirror/mirror.go   (Mirror.GetIndex, GetVersion, GetArchive,
                               rewriteArchiveURLsWithH1, extractFilename)
  internal/mirror/upstream.go (UpstreamClient.FetchIndex, FetchVersion,
                               convertRegistryAPIToVersionResponse)
  internal/storage/filesystem.go (FilesystemStorage, archivePath sanitization)
  internal/server/handlers.go (status-code mapping of mirror errors)

Strings are modelled as lists of characters (Go strings are byte slices; all
paths and URLs involved are ASCII).  Go maps are modelled as association
lists with first-match lookup; insertion conses, which matches overwrite
semantics.  JSON manifest blobs are modelled by the inductive MBlob: Go byte
strings partition into those that json.Unmarshal accepts as a VersionResponse
and those that do not; encoding/json marshalling of a map is deterministic
(keys sorted), so equality of structured values coincides with byte equality
of the marshalled forms.
-/

deriving instance DecidableEq for Except

/-- Character-list model of a Go string. -/
abbrev Str : Type := List Char

/-- Conversion from Lean string literals to the character-list model. -/
def s2l (s : String) : Str := s.data

/-- First-match association-list lookup, modelling a Go map read. -/
def alookup {α β : Type} [DecidableEq α] (k : α) : List (α × β) → Option β
  | [] => none
  | (a, b) :: t => if a = k then some b else alookup k t

/-- Association-list insert, modelling a Go map write (overwrite wins
because lookup is first-match). -/
def ainsert {α β : Type} [DecidableEq α] (k : α) (v : β) (l : List (α × β)) :
    List (α × β) := (k, v) :: l

/-- Model of Go strings.HasPrefix: the first argument read as a leading
segment of the second. -/
def startsOf : Str → Str → Bool
  | [], _ => true
  | _ :: _, [] => false
  | a :: s, b :: t => a == b && startsOf s t

/-- Model of strings.TrimSuffix(s, "/"): removes one trailing slash. -/
def trimOneSlash (s : Str) : Str :=
  if s.getLast? = some '/' then s.dropLast else s

/-!
## Path model

filepath.Clean (on linux, path.Clean), strings.ReplaceAll(s, "..", ""),
filepath.Join and FilesystemStorage.archivePath from
internal/storage/filesystem.go.
-/

/-- Whether the character string contains two adjacent dots, modelling
strings.Contains(s, ".."). -/
def hasDD : Str → Bool
  | [] => false
  | [_] => false
  | a :: b :: r => (a = '.' ∧ b = '.') || hasDD (b :: r)

/-- Model of strings.ReplaceAll(s, "..", ""): left-to-right non-overlapping
removal of adjacent dot pairs. -/
def removeDD : Str → Str
  | [] => []
  | [c] => [c]
  | a :: b :: r => if a = '.' ∧ b = '.' then removeDD r else a :: removeDD (b :: r)

/-- Splitting a path on slashes, modelling strings.Split(s, "/").  Always
returns at least one (possibly empty) element. -/
def splitSlash : Str → List Str
  | [] => [[]]
  | c :: rest =>
    if c = '/' then [] :: splitSlash rest
    else
      match splitSlash rest with
      | [] => [[c]]
      | e :: es => (c :: e) :: es

/-- Joining path elements with slashes, modelling strings.Join(l, "/"). -/
def joinSlash : List Str → Str
  | [] => []
  | [e] => e
  | e :: f :: es => e ++ '/' :: joinSlash (f :: es)

/-- Whether a path is rooted (begins with a slash). -/
def rootedOf (s : Str) : Bool := s.head? = some '/'

/-- One step of path.Clean element processing.  The stack is kept top-first.
Empty and dot elements are dropped; a dot-dot element pops unless the path
is relative and nothing poppable remains, in which case it is kept. -/
def pstep (rooted : Bool) (stack : List Str) (e : Str) : List Str :=
  if e = [] ∨ e = ['.'] then stack
  else if e = ['.', '.'] then
    match stack with
    | [] => if rooted then [] else [['.', '.']]
    | top :: rest => if top = ['.', '.'] then ['.', '.'] :: top :: rest else rest
  else e :: stack

/-- The cleaned element stack (top-first) of a path. -/
def cleanStack (rooted : Bool) (s : Str) : List Str :=
  (splitSlash s).foldl (pstep rooted) []

/-- Rebuilding the cleaned path string from rootedness and element stack,
as path.Clean does; an empty relative result becomes a single dot. -/
def rebuild (rooted : Bool) (stack : List Str) : Str :=
  if rooted then '/' :: joinSlash stack.reverse
  else if joinSlash stack.reverse = [] then ['.'] else joinSlash stack.reverse

/-- Model of filepath.Clean on linux. -/
def clean (s : Str) : Str := rebuild (rootedOf s) (cleanStack (rootedOf s) s)

/-- Model of filepath.Join(a, b): empty components are skipped, the joined
string is cleaned. -/
def join2 (a b : Str) : Str :=
  if a = [] then (if b = [] then [] else clean b)
  else clean (a ++ '/' :: b)

/-- FilesystemStorage.archivePath sanitization, from
internal/storage/filesystem.go: clean, remove every adjacent dot pair when
present, strip one leading slash. -/
def sanitizePath (p : Str) : Str :=
  let s := clean p
  let s := if hasDD s then removeDD s else s
  if s.head? = some '/' then s.tail else s

/-- FilesystemStorage.archivePath: the sanitized path joined under the
cache root. -/
def archivePath (cacheDir p : Str) : Str := join2 cacheDir (sanitizePath p)

/-!
## URL model

Mirror.extractFilename calls net/url Parse and takes the last component of
the decoded path.  The model covers URLs without percent-escapes, userinfo
or control characters (scheme://host/path?query#fragment and relative
references); within that subset Parse succeeds, so the error fallback of
the source (raw splitting on slashes) is not represented.
-/

/-- The remainder of a URL after the first scheme separator, or none when
there is no scheme separator. -/
def afterSS : Str → Option Str
  | ':' :: '/' :: '/' :: r => some r
  | _ :: r => afterSS r
  | [] => none

/-- The characters up to (excluding) the first occurrence of any stop
character. -/
def takeUntil (stops : List Char) : Str → Str
  | [] => []
  | c :: r => if c ∈ stops then [] else c :: takeUntil stops r

/-- The suffix of an authority-plus-path that starts at the first slash
(the path component); empty when there is no slash. -/
def fromSlash : Str → Str
  | [] => []
  | '/' :: r => '/' :: r
  | _ :: r => fromSlash r

/-- Model of (url.Parse s).Path for the covered subset: strip the scheme
and authority when present, drop query and fragment. -/
def urlPathOf (s : Str) : Str :=
  match afterSS s with
  | some r => fromSlash (takeUntil ['?', '#'] r)
  | none => takeUntil ['?', '#'] s

/-- Model of strings.Trim(s, "/"): slashes removed from both ends. -/
def trimSlashes (s : Str) : Str :=
  (((s.dropWhile (· = '/')).reverse.dropWhile (· = '/')).reverse)

/-- Mirror.extractFilename from internal/mirror/mirror.go: the last
component of the parsed URL path. -/
def extractFilename (archiveURL : Str) : Str :=
  ((splitSlash (trimSlashes (urlPathOf archiveURL))).getLast?).getD (s2l "archive.zip")

/-!
## Manifest data model
-/

/-- Archive from internal/mirror/types.go: a downloadable provider
package. -/
structure Archive where
  url : Str
  hashes : List Str
deriving DecidableEq, Repr

/-- VersionResponse from internal/mirror/types.go: per-platform archives.
The Go map is modelled as an association list; encoding/json marshals maps
with sorted keys, so list equality models byte equality of the JSON. -/
structure VersionResponse where
  archives : List (Str × Archive)
deriving DecidableEq, Repr

/-- A manifest blob held in storage, abstracting the stored bytes by their
json.Unmarshal outcome: either bytes that parse as a VersionResponse or
bytes that do not (the tag keeps distinct malformed byte strings apart). -/
inductive MBlob where
  | wellFormed (v : VersionResponse)
  | malformed (tag : Nat)
deriving DecidableEq, Repr

/-- json.Unmarshal of a stored manifest blob into a VersionResponse. -/
def parseMB : MBlob → Option VersionResponse
  | .wellFormed v => some v
  | .malformed _ => none

/-- Download metadata from the registry API
(struct download_url / shasum in upstream.go). -/
structure DownloadInfo where
  downloadURL : Str
  shasum : Str
deriving DecidableEq, Repr

/-- Error identity of mirror-layer failures, as the handlers distinguish
them: mirror.ErrNotFound, io.EOF, and every other (wrapped fmt.Errorf)
error. -/
inductive MErr where
  | notFound
  | eof
  | generic
deriving DecidableEq, Repr

/-!
## Storage model

internal/storage/filesystem.go.  The cache directory tree is modelled as
association lists per namespace.  Index and manifest blobs are keyed by
their identity tuples (indexPath / versionPath build injective paths from
them); archive blobs and sidecars are keyed by the full sanitized
filesystem path that archivePath produces, since every archive-side
operation routes its path argument through archivePath.  GetH1Hash and
GetUpstreamURL return the empty string, not an error, when the sidecar
file is absent.
-/

/-- Archive blob bytes. -/
abbrev Blob : Type := List Nat

/-- The filesystem storage state. -/
structure Store where
  cacheDir : Str
  indexes : List ((Str × Str × Str) × Str)
  versions : List ((Str × Str × Str × Str) × MBlob)
  archives : List (Str × Blob)
  h1s : List (Str × Str)
  ups : List (Str × Str)
deriving DecidableEq, Repr

/-- An empty cache rooted at the given directory. -/
def emptyStore (cacheDir : Str) : Store :=
  { cacheDir := cacheDir, indexes := [], versions := [], archives := [],
    h1s := [], ups := [] }

/-- FilesystemStorage.GetIndex. -/
def Store.getIndexS (st : Store) (k : Str × Str × Str) : Option Str :=
  alookup k st.indexes

/-- FilesystemStorage.PutIndex. -/
def Store.putIndexS (st : Store) (k : Str × Str × Str) (data : Str) : Store :=
  { st with indexes := ainsert k data st.indexes }

/-- FilesystemStorage.GetVersion. -/
def Store.getVersionS (st : Store) (k : Str × Str × Str × Str) : Option MBlob :=
  alookup k st.versions

/-- FilesystemStorage.PutVersion. -/
def Store.putVersionS (st : Store) (k : Str × Str × Str × Str) (data : MBlob) : Store :=
  { st with versions := ainsert k data st.versions }

/-- FilesystemStorage.GetArchive: open the blob at the sanitized path;
absence is io.EOF. -/
def Store.getArchiveS (st : Store) (p : Str) : Option Blob :=
  alookup (archivePath st.cacheDir p) st.archives

/-- FilesystemStorage.PutArchive at the sanitized path. -/
def Store.putArchiveS (st : Store) (p : Str) (data : Blob) : Store :=
  { st with archives := ainsert (archivePath st.cacheDir p) data st.archives }

/-- FilesystemStorage.GetH1Hash: empty string when the sidecar is absent. -/
def Store.getH1S (st : Store) (p : Str) : Str :=
  (alookup (archivePath st.cacheDir p) st.h1s).getD []

/-- FilesystemStorage.PutH1Hash. -/
def Store.putH1S (st : Store) (p h : Str) : Store :=
  { st with h1s := ainsert (archivePath st.cacheDir p) h st.h1s }

/-- FilesystemStorage.GetUpstreamURL: empty string when the sidecar is
absent. -/
def Store.getUpstreamS (st : Store) (p : Str) : Str :=
  (alookup (archivePath st.cacheDir p) st.ups).getD []

/-- FilesystemStorage.PutUpstreamURL. -/
def Store.putUpstreamS (st : Store) (p u : Str) : Store :=
  { st with ups := ainsert (archivePath st.cacheDir p) u st.ups }

/-!
## Upstream client model

internal/mirror/upstream.go.  HTTP traffic is abstracted by oracles: the
index and manifest fetches by their parsed outcomes, the registry-API
platform probes by a function from (os, arch) to the fetch outcome (an
erroring fetch, or a final status together with the json.Unmarshal outcome
of the body), and archive fetches by URL.  Index payloads are kept as
opaque serialized bytes since no claim inspects index structure.
-/

/-- Oracle outcomes of the upstream HTTP fetches reachable from one
UpstreamClient call. -/
structure Upstream where
  fetchIndexU : Str → Str → Str → Except MErr Str
  fetchVersionU : Str → Str → Str → Str → Except MErr VersionResponse
  fetchArchiveU : Str → Except MErr Blob

/-- The fixed registry-API platform probe set of
convertRegistryAPIToVersionResponse. -/
def platforms : List (Str × Str) :=
  [(s2l "linux", s2l "amd64"), (s2l "linux", s2l "arm64"),
   (s2l "darwin", s2l "amd64"), (s2l "darwin", s2l "arm64"),
   (s2l "windows", s2l "amd64"), (s2l "windows", s2l "386"),
   (s2l "freebsd", s2l "amd64"), (s2l "openbsd", s2l "amd64")]

/-- One platform probe of convertRegistryAPIToVersionResponse: skip on
fetch error, on 404, on any status other than 200, and on a body that
fails to unmarshal; a 200 with a parsed body contributes one archive
entry. -/
def registryStep (probe : Str → Str → Option (Nat × Option DownloadInfo))
    (acc : List (Str × Archive)) (pr : Str × Str) : List (Str × Archive) :=
  match probe pr.1 pr.2 with
  | none => acc
  | some (status, body) =>
    if status = 404 then acc
    else if status ≠ 200 then acc
    else
      match body with
      | none => acc
      | some info =>
        acc ++ [(pr.1 ++ '_' :: pr.2,
          { url := info.downloadURL,
            hashes := [s2l "zh:" ++ info.shasum] })]

/-- UpstreamClient.convertRegistryAPIToVersionResponse: probe each
platform in the fixed set, aggregate the contributed archive entries and
fail when no platform contributed. -/
def convertRegistryAPIToVersionResponse
    (probe : Str → Str → Option (Nat × Option DownloadInfo)) :
    Except MErr VersionResponse :=
  let archives := platforms.foldl (registryStep probe) []
  if archives = [] then .error .generic else .ok { archives := archives }

/-- The dialect test of FetchIndex and FetchVersion: the registry-API
dialect is taken when the requested hostname is registry.terraform.io or
the configured base URL is https://registry.terraform.io. -/
def usesRegistryAPI (baseURL hostname : Str) : Bool :=
  hostname == s2l "registry.terraform.io" ||
  baseURL == s2l "https://registry.terraform.io"

/-- UpstreamClient.buildURL. -/
def buildURL (baseURL path : Str) : Str := baseURL ++ '/' :: path

/-- The URL FetchIndex requests in the native mirror-protocol dialect. -/
def nativeIndexURL (baseURL hostname ns t : Str) : Str :=
  buildURL baseURL (hostname ++ '/' :: ns ++ '/' :: t ++ s2l "/index.json")

/-- The URL FetchIndex requests in the registry-API dialect. -/
def registryVersionsURL (baseURL ns t : Str) : Str :=
  baseURL ++ s2l "/v1/providers/" ++ ns ++ '/' :: t ++ s2l "/versions"

/-- The URL FetchVersion requests in the native mirror-protocol dialect. -/
def nativeVersionURL (baseURL hostname ns t v : Str) : Str :=
  buildURL baseURL (hostname ++ '/' :: ns ++ '/' :: t ++ '/' :: v ++ s2l ".json")

/-- The per-platform download URL of the registry-API dialect. -/
def registryDownloadURL (baseURL ns t v osName arch : Str) : Str :=
  baseURL ++ s2l "/v1/providers/" ++ ns ++ '/' :: t ++ '/' :: v ++
    s2l "/download/" ++ osName ++ '/' :: arch

/-- The URL FetchIndex issues its GET against, by dialect. -/
def fetchIndexURL (baseURL hostname ns t : Str) : Str :=
  if usesRegistryAPI baseURL hostname then registryVersionsURL baseURL ns t
  else nativeIndexURL baseURL hostname ns t

/-- The URLs FetchVersion issues GETs against, by dialect: the eight
registry probes, or the single native manifest URL. -/
def fetchVersionURLs (baseURL hostname ns t v : Str) : List Str :=
  if usesRegistryAPI baseURL hostname then
    platforms.map (fun pr => registryDownloadURL baseURL ns t v pr.1 pr.2)
  else [nativeVersionURL baseURL hostname ns t v]

/-!
## Mirror orchestrator

internal/mirror/mirror.go.  The h1 computation (zip extraction plus
dirhash) is abstracted by an oracle from archive bytes to an optional hash
string, matching its best-effort use.
-/

/-- Mirror configuration: the public base URL of the mirror. -/
structure MirrorCfg where
  baseURL : Str
deriving DecidableEq, Repr

/-- The mirror-local archive path built inside rewriteArchiveURLsWithH1:
hostname/namespace/type/filename. -/
def localArchivePath (h ns t filename : Str) : Str :=
  h ++ '/' :: ns ++ '/' :: t ++ '/' :: filename

/-- The rewritten archive URL: the base URL with one trailing slash
trimmed, a slash, and the local archive path. -/
def mirrorURL (baseURL h ns t filename : Str) : Str :=
  trimOneSlash baseURL ++ '/' :: localArchivePath h ns t filename

/-- Whether a hashes list already holds an h1-prefixed entry. -/
def anyH1 (hashes : List Str) : Bool :=
  hashes.any (fun ha => startsOf (s2l "h1:") ha)

/-- One archive entry of the rewrite loop of rewriteArchiveURLsWithH1:
entries with an empty URL are kept as they are; otherwise the upstream URL
sidecar is written, the URL rewritten to the mirror, and a stored non-empty
h1 hash appended when no h1-prefixed entry is present yet. -/
def rewriteStep (baseURL h ns t : Str) :
    (List (Str × Archive) × Store) → (Str × Archive) →
    (List (Str × Archive) × Store) :=
  fun acc entry =>
    if entry.2.url ≠ [] then
      let filename := extractFilename entry.2.url
      let apath := localArchivePath h ns t filename
      let st := acc.2.putUpstreamS apath entry.2.url
      let h1 := st.getH1S apath
      let hashes :=
        if h1 ≠ [] ∧ anyH1 entry.2.hashes = false then entry.2.hashes ++ [h1]
        else entry.2.hashes
      (acc.1 ++ [(entry.1, { url := mirrorURL baseURL h ns t filename,
                             hashes := hashes })], st)
    else (acc.1 ++ [entry], acc.2)

/-- Mirror.rewriteArchiveURLsWithH1: parse the manifest blob (failure is a
non-not-found error), rewrite each archive entry, marshal back. -/
def rewriteArchiveURLsWithH1 (baseURL h ns t : Str) (data : MBlob)
    (st : Store) : Except MErr MBlob × Store :=
  match parseMB data with
  | none => (.error .generic, st)
  | some resp =>
    let r := resp.archives.foldl (rewriteStep baseURL h ns t) ([], st)
    (.ok (.wellFormed { archives := r.1 }), r.2)

/-- Mirror.GetIndex: serve from cache, otherwise fetch, store
(best-effort) and return the serialized response. -/
def getIndexM (up : Upstream) (st : Store) (h ns t : Str) :
    Except MErr Str × Store :=
  match st.getIndexS (h, ns, t) with
  | some cached => (.ok cached, st)
  | none =>
    match up.fetchIndexU h ns t with
    | .error e => (.error e, st)
    | .ok data => (.ok data, st.putIndexS (h, ns, t) data)

/-- Mirror.GetVersion: on a cache hit rewrite the cached blob; on a miss
fetch, marshal, store the raw form, then rewrite. -/
def getVersionM (m : MirrorCfg) (up : Upstream) (st : Store)
    (h ns t v : Str) : Except MErr MBlob × Store :=
  match st.getVersionS (h, ns, t, v) with
  | some cached => rewriteArchiveURLsWithH1 m.baseURL h ns t cached st
  | none =>
    match up.fetchVersionU h ns t v with
    | .error e => (.error e, st)
    | .ok resp =>
      let data := MBlob.wellFormed resp
      let st1 := st.putVersionS (h, ns, t, v) data
      rewriteArchiveURLsWithH1 m.baseURL h ns t data st1

/-- Mirror.GetArchive: serve from cache; otherwise look up the upstream
URL sidecar (absent or empty fails with a wrapped generic error, not
io.EOF), fetch, best-effort store the computed h1 hash, store the archive
and re-open it from the cache. -/
def getArchiveM (up : Upstream) (computeH1 : Blob → Option Str)
    (st : Store) (p : Str) : Except MErr Blob × Store :=
  match st.getArchiveS p with
  | some b => (.ok b, st)
  | none =>
    let u := st.getUpstreamS p
    if u = [] then (.error .generic, st)
    else
      match up.fetchArchiveU u with
      | .error _ => (.error .generic, st)
      | .ok data =>
        let st1 :=
          match computeH1 data with
          | some h1 => st.putH1S p h1
          | none => st
        let st2 := st1.putArchiveS p data
        match st2.getArchiveS p with
        | some b => (.ok b, st2)
        | none => (.error .eof, st2)

/-- The HTTP status VersionHandlerWithParams answers for a GetVersion
outcome (internal/server/handlers.go): only mirror.ErrNotFound maps to
404. -/
def versionHandlerStatus : Except MErr MBlob → Nat
  | .ok _ => 200
  | .error .notFound => 404
  | .error _ => 500

/-- The HTTP status ArchiveHandlerForProvider answers for a GetArchive
outcome: only io.EOF maps to 404. -/
def archiveHandlerStatus : Except MErr Blob → Nat
  | .ok _ => 200
  | .error .eof => 404
  | .error _ => 500

/-- Storage states reachable from an empty cache through the mirror's
operations, each step under an arbitrary configuration and arbitrary
upstream and hash oracles. -/
inductive ReachableStore : Store → Prop where
  | init (cacheDir : Str) : ReachableStore (emptyStore cacheDir)
  | stepIndex (up : Upstream) (st : Store) (h ns t : Str) :
      ReachableStore st → ReachableStore (getIndexM up st h ns t).2
  | stepVersion (m : MirrorCfg) (up : Upstream) (st : Store) (h ns t v : Str) :
      ReachableStore st → ReachableStore (getVersionM m up st h ns t v).2
  | stepArchive (up : Upstream) (computeH1 : Blob → Option Str)
      (st : Store) (p : Str) :
      ReachableStore st → ReachableStore (getArchiveM up computeH1 st p).2

/-!
## Derived characterizations and concrete claim inputs
-/

/-- The pure per-entry effect of the rewrite loop on the served manifest,
reading h1 sidecars from a fixed storage state (the loop never modifies
the h1 namespace, so this agrees with the threaded state). -/
def rewriteEntryPure (baseURL h ns t : Str) (st : Store)
    (entry : Str × Archive) : Str × Archive :=
  if entry.2.url ≠ [] then
    let filename := extractFilename entry.2.url
    let h1 := st.getH1S (localArchivePath h ns t filename)
    let hashes :=
      if h1 ≠ [] ∧ anyH1 entry.2.hashes = false then entry.2.hashes ++ [h1]
      else entry.2.hashes
    (entry.1, { url := mirrorURL baseURL h ns t filename, hashes := hashes })
  else entry

/-- The contribution of one registry-API platform probe: an archive entry
exactly when the probe answered status 200 with a body that unmarshals. -/
def registryProbeEntry (probe : Str → Str → Option (Nat × Option DownloadInfo))
    (pr : Str × Str) : Option (Str × Archive) :=
  match probe pr.1 pr.2 with
  | none => none
  | some (status, body) =>
    if status = 404 then none
    else if status ≠ 200 then none
    else
      match body with
      | none => none
      | some info =>
        some (pr.1 ++ '_' :: pr.2,
          { url := info.downloadURL, hashes := [s2l "zh:" ++ info.shasum] })

/-- An upstream oracle for concrete runs: one provider version with a
single linux_amd64 archive, archives served as the bytes 7, 7. -/
def upC : Upstream :=
  { fetchIndexU := fun _ _ _ => .ok (s2l "idx"),
    fetchVersionU := fun _ _ _ _ => .ok
      { archives := [(s2l "linux_amd64",
          { url := s2l "https://origin.example/aws_5.0.0_linux_amd64.zip",
            hashes := [s2l "zh:abc"] })] },
    fetchArchiveU := fun _ => .ok [7, 7] }

/-- The store after a cold GetVersion against upC (writes the manifest
blob and the upstream-URL sidecar). -/
def stAfterVersion : Store :=
  (getVersionM { baseURL := s2l "http://mirror.example" } upC
    (emptyStore (s2l "/cache")) (s2l "registry.example") (s2l "hashicorp")
    (s2l "aws") (s2l "5.0.0")).2

/-- The store after the subsequent GetArchive fill of the rewritten
archive path. -/
def stAfterArchive : Store :=
  (getArchiveM upC (fun _ => some (s2l "h1:qqq")) stAfterVersion
    (s2l "registry.example/hashicorp/aws/aws_5.0.0_linux_amd64.zip")).2

/-- C6 counterexample input: a manifest whose archive URL has an empty
final path segment. -/
def c6blob : MBlob :=
  .wellFormed { archives := [(s2l "linux_amd64",
    { url := s2l "https://origin.example/", hashes := [] })] }

/-- First application of the rewrite step to c6blob. -/
def c6first : Except MErr MBlob × Store :=
  rewriteArchiveURLsWithH1 (s2l "http://mirror.example") (s2l "registry.example")
    (s2l "hashicorp") (s2l "aws") c6blob (emptyStore (s2l "/cache"))

/-- The manifest produced by the first rewrite application. -/
def c6out1 : MBlob :=
  match c6first.1 with
  | .ok b => b
  | .error _ => c6blob

/-- Second application of the rewrite step, on the first application's
output and state. -/
def c6second : Except MErr MBlob × Store :=
  rewriteArchiveURLsWithH1 (s2l "http://mirror.example") (s2l "registry.example")
    (s2l "hashicorp") (s2l "aws") c6out1 c6first.2

/-- C6 witness input: a well-behaved manifest (non-empty filename). -/
def c6wresp : VersionResponse :=
  { archives := [(s2l "linux_amd64",
      { url := s2l "https://origin.example/aws_5.0.0_linux_amd64.zip",
        hashes := [s2l "zh:abc"] })] }

/-- C6 witness store: an h1 sidecar is present for the archive path the
rewrite derives. -/
def c6wst : Store :=
  { emptyStore (s2l "/cache") with
    h1s := [(s2l "/cache/registry.example/hashicorp/aws/aws_5.0.0_linux_amd64.zip",
             s2l "h1:zzz")] }

/-- First rewrite application to the C6 witness manifest. -/
def c6wfirst : Except MErr MBlob × Store :=
  rewriteArchiveURLsWithH1 (s2l "http://mirror.example") (s2l "registry.example")
    (s2l "hashicorp") (s2l "aws") (.wellFormed c6wresp) c6wst

/-- The manifest produced by the first rewrite of the C6 witness input. -/
def c6wout : MBlob :=
  match c6wfirst.1 with
  | .ok b => b
  | .error _ => .malformed 0

/-- C7 counterexample probe oracle: linux/amd64 answers 201 (a 2xx status
that is not 200) with a parseable body, every other platform 404. -/
def c7probe : Str → Str → Option (Nat × Option DownloadInfo) :=
  fun osName arch =>
    if osName = s2l "linux" ∧ arch = s2l "amd64" then
      some (201, some { downloadURL := s2l "https://origin.example/d.zip",
                        shasum := s2l "abc" })
    else some (404, none)

/-- C10 witness store: a malformed cached manifest blob and a cached index
blob for the same provider. -/
def c10st : Store :=
  { emptyStore (s2l "/cache") with
    versions := [((s2l "registry.example", s2l "hashicorp", s2l "aws",
                   s2l "5.0.0"), .malformed 3)],
    indexes := [((s2l "registry.example", s2l "hashicorp", s2l "aws"),
                 s2l "cached-index-bytes")] }

/-- The storage invariant behind claim C4: every key holding an archive
blob has a non-empty upstream-URL sidecar. -/
def archiveSidecarInv (st : Store) : Prop :=
  ∀ k : Str, (alookup k st.archives).isSome = true →
    (alookup k st.ups).getD [] ≠ []

/-!
## Lemmas: the rewrite loop
-/

theorem alookup_ainsert_self {α β : Type} [DecidableEq α] (k : α) (v : β)
    (l : List (α × β)) : alookup k (ainsert k v l) = some v := by
  simp [alookup, ainsert]

theorem alookup_ainsert_ne {α β : Type} [DecidableEq α] {k k' : α} (v : β)
    (l : List (α × β)) (h : k' ≠ k) :
    alookup k (ainsert k' v l) = alookup k l := by
  simp [alookup, ainsert, h]

theorem startsOf_append (p r : Str) : startsOf p (p ++ r) = true := by
  induction p with
  | nil => simp [startsOf]
  | cons a s ih => simp [startsOf, ih]


theorem alookup_mem {α β : Type} [DecidableEq α] {k : α} {v : β}
    {l : List (α × β)} (h : alookup k l = some v) : (k, v) ∈ l := by
  induction l with
  | nil => simp [alookup] at h
  | cons p t ih =>
    rw [alookup] at h
    by_cases hk : p.1 = k
    · simp [hk] at h
      subst hk
      subst h
      simp
    · simp [hk] at h
      exact List.mem_cons_of_mem _ (ih h)

theorem getH1S_congr {st st' : Store} (h1 : st.h1s = st'.h1s)
    (h2 : st.cacheDir = st'.cacheDir) (p : Str) :
    st.getH1S p = st'.getH1S p := by
  simp [Store.getH1S, h1, h2]

theorem rewriteEntryPure_congr (b h ns t : Str) {st st' : Store}
    (h1 : st.h1s = st'.h1s) (h2 : st.cacheDir = st'.cacheDir)
    (e : Str × Archive) :
    rewriteEntryPure b h ns t st e = rewriteEntryPure b h ns t st' e := by
  simp only [rewriteEntryPure, getH1S_congr h1 h2]

theorem rewriteStep_sndFrame (b h ns t : Str)
    (acc : List (Str × Archive) × Store) (e : Str × Archive) :
    (rewriteStep b h ns t acc e).2.cacheDir = acc.2.cacheDir ∧
    (rewriteStep b h ns t acc e).2.h1s = acc.2.h1s ∧
    (rewriteStep b h ns t acc e).2.versions = acc.2.versions ∧
    (rewriteStep b h ns t acc e).2.archives = acc.2.archives ∧
    (rewriteStep b h ns t acc e).2.indexes = acc.2.indexes := by
  by_cases hu : e.2.url ≠ []
  · simp [rewriteStep, hu, Store.putUpstreamS]
  · simp [rewriteStep, hu]

theorem rewriteStep_fst (b h ns t : Str)
    (acc : List (Str × Archive) × Store) (e : Str × Archive) :
    (rewriteStep b h ns t acc e).1
      = acc.1 ++ [rewriteEntryPure b h ns t acc.2 e] := by
  by_cases hu : e.2.url ≠ []
  · simp [rewriteStep, hu, rewriteEntryPure, Store.putUpstreamS, Store.getH1S]
  · simp [rewriteStep, hu, rewriteEntryPure]

theorem rewriteFold_sndFrame (b h ns t : Str) (l : List (Str × Archive)) :
    ∀ acc : List (Str × Archive) × Store,
      (l.foldl (rewriteStep b h ns t) acc).2.cacheDir = acc.2.cacheDir ∧
      (l.foldl (rewriteStep b h ns t) acc).2.h1s = acc.2.h1s ∧
      (l.foldl (rewriteStep b h ns t) acc).2.versions = acc.2.versions ∧
      (l.foldl (rewriteStep b h ns t) acc).2.archives = acc.2.archives ∧
      (l.foldl (rewriteStep b h ns t) acc).2.indexes = acc.2.indexes := by
  induction l with
  | nil => intro acc; simp
  | cons e rest ih =>
    intro acc
    have hstep := rewriteStep_sndFrame b h ns t acc e
    have := ih (rewriteStep b h ns t acc e)
    simp only [List.foldl_cons] at *
    obtain ⟨a1, a2, a3, a4, a5⟩ := hstep
    obtain ⟨c1, c2, c3, c4, c5⟩ := this
    exact ⟨c1.trans a1, c2.trans a2, c3.trans a3, c4.trans a4, c5.trans a5⟩

theorem rewriteFold_fst (b h ns t : Str) (l : List (Str × Archive)) :
    ∀ acc : List (Str × Archive) × Store,
      (l.foldl (rewriteStep b h ns t) acc).1
        = acc.1 ++ l.map (rewriteEntryPure b h ns t acc.2) := by
  induction l with
  | nil => intro acc; simp
  | cons e rest ih =>
    intro acc
    have hstep := rewriteStep_sndFrame b h ns t acc e
    simp only [List.foldl_cons, List.map_cons]
    rw [ih (rewriteStep b h ns t acc e), rewriteStep_fst]
    have hmap : rest.map (rewriteEntryPure b h ns t (rewriteStep b h ns t acc e).2)
        = rest.map (rewriteEntryPure b h ns t acc.2) :=
      List.map_congr_left (fun x _ =>
        rewriteEntryPure_congr b h ns t hstep.2.1 hstep.1 x)
    rw [hmap]
    simp

theorem rewrite_ok (b h ns t : Str) (resp : VersionResponse) (st : Store) :
    (rewriteArchiveURLsWithH1 b h ns t (.wellFormed resp) st).1
      = .ok (.wellFormed
          { archives := resp.archives.map (rewriteEntryPure b h ns t st) }) := by
  simp [rewriteArchiveURLsWithH1, parseMB, rewriteFold_fst]

theorem rewrite_sndFrame (b h ns t : Str) (d : MBlob) (st : Store) :
    (rewriteArchiveURLsWithH1 b h ns t d st).2.cacheDir = st.cacheDir ∧
    (rewriteArchiveURLsWithH1 b h ns t d st).2.h1s = st.h1s ∧
    (rewriteArchiveURLsWithH1 b h ns t d st).2.versions = st.versions ∧
    (rewriteArchiveURLsWithH1 b h ns t d st).2.archives = st.archives ∧
    (rewriteArchiveURLsWithH1 b h ns t d st).2.indexes = st.indexes := by
  cases d with
  | wellFormed resp =>
    simpa [rewriteArchiveURLsWithH1, parseMB]
      using rewriteFold_sndFrame b h ns t resp.archives ([], st)
  | malformed tag => simp [rewriteArchiveURLsWithH1, parseMB]

theorem rewrite_fst_congr (b h ns t : Str) (d : MBlob) {st st' : Store}
    (h1 : st.h1s = st'.h1s) (h2 : st.cacheDir = st'.cacheDir) :
    (rewriteArchiveURLsWithH1 b h ns t d st).1
      = (rewriteArchiveURLsWithH1 b h ns t d st').1 := by
  cases d with
  | wellFormed resp =>
    rw [rewrite_ok, rewrite_ok]
    have : resp.archives.map (rewriteEntryPure b h ns t st)
        = resp.archives.map (rewriteEntryPure b h ns t st') :=
      List.map_congr_left (fun x _ => rewriteEntryPure_congr b h ns t h1 h2 x)
    rw [this]
  | malformed tag => simp [rewriteArchiveURLsWithH1, parseMB]

/-!
## Claims about GetVersion
-/

/-- C8: calling GetVersion twice in succession for the same
(hostname, namespace, type, version) against the same deterministic
upstream, with no intervening storage change, returns identical serialized
manifests: the fetch-store-rewrite of the first call and the cache-hit
rewrite of the second agree.  (Byte equality follows because
encoding/json marshalling of the structured value is deterministic.) -/
theorem c8_getVersion_twice_identical (m : MirrorCfg) (up : Upstream)
    (st : Store) (h ns t v : Str) :
    (getVersionM m up (getVersionM m up st h ns t v).2 h ns t v).1
      = (getVersionM m up st h ns t v).1 := by
  cases hc : st.getVersionS (h, ns, t, v) with
  | some cached =>
    have hg : getVersionM m up st h ns t v
        = rewriteArchiveURLsWithH1 m.baseURL h ns t cached st := by
      simp [getVersionM, hc]
    have hframe := rewrite_sndFrame m.baseURL h ns t cached st
    have hc2 : (rewriteArchiveURLsWithH1 m.baseURL h ns t cached st).2.getVersionS
        (h, ns, t, v) = some cached := by
      simp only [Store.getVersionS] at hc ⊢
      rw [hframe.2.2.1]
      exact hc
    rw [hg]
    simp only [getVersionM, hc2]
    exact rewrite_fst_congr m.baseURL h ns t cached hframe.2.1 hframe.1
  | none =>
    cases hf : up.fetchVersionU h ns t v with
    | error e =>
      have hg : getVersionM m up st h ns t v = (.error e, st) := by
        simp [getVersionM, hc, hf]
      rw [hg]
      simp only [getVersionM, hc, hf]
    | ok resp =>
      have hg : getVersionM m up st h ns t v
          = rewriteArchiveURLsWithH1 m.baseURL h ns t (.wellFormed resp)
              (st.putVersionS (h, ns, t, v) (.wellFormed resp)) := by
        simp [getVersionM, hc, hf]
      have hframe := rewrite_sndFrame m.baseURL h ns t (.wellFormed resp)
        (st.putVersionS (h, ns, t, v) (.wellFormed resp))
      have hc2 : (getVersionM m up st h ns t v).2.getVersionS (h, ns, t, v)
          = some (.wellFormed resp) := by
        rw [hg]
        simp only [Store.getVersionS]
        rw [hframe.2.2.1]
        simp [Store.putVersionS, alookup_ainsert_self]
      conv_lhs => rw [getVersionM]
      rw [hc2]
      rw [hg]
      exact rewrite_fst_congr m.baseURL h ns t (.wellFormed resp)
        hframe.2.1 hframe.1

/-- C5: on a manifest cache miss GetVersion stores exactly the raw
(un-rewritten) upstream manifest via PutVersion — for every configured
base URL the stored blob is the marshalled upstream response — and the
value served is produced by the rewrite step applied after the store, so
a stored blob contains a mirror-base-prefixed URL only if the upstream
response already did. -/
theorem c5_store_raw_rewrite_on_read (m : MirrorCfg) (up : Upstream)
    (st : Store) (h ns t v : Str) (resp : VersionResponse)
    (hmiss : st.getVersionS (h, ns, t, v) = none)
    (hok : up.fetchVersionU h ns t v = .ok resp) :
    (getVersionM m up st h ns t v).2.getVersionS (h, ns, t, v)
        = some (.wellFormed resp) ∧
    getVersionM m up st h ns t v
        = rewriteArchiveURLsWithH1 m.baseURL h ns t (.wellFormed resp)
            (st.putVersionS (h, ns, t, v) (.wellFormed resp)) ∧
    ((∀ pa ∈ resp.archives, startsOf m.baseURL pa.2.url = false) →
      ∀ v', (getVersionM m up st h ns t v).2.getVersionS (h, ns, t, v)
          = some (.wellFormed v') →
        ∀ pa ∈ v'.archives, startsOf m.baseURL pa.2.url = false) := by
  have hg : getVersionM m up st h ns t v
      = rewriteArchiveURLsWithH1 m.baseURL h ns t (.wellFormed resp)
          (st.putVersionS (h, ns, t, v) (.wellFormed resp)) := by
    simp [getVersionM, hmiss, hok]
  have hframe := rewrite_sndFrame m.baseURL h ns t (.wellFormed resp)
    (st.putVersionS (h, ns, t, v) (.wellFormed resp))
  have hstored : (getVersionM m up st h ns t v).2.getVersionS (h, ns, t, v)
      = some (.wellFormed resp) := by
    rw [hg]
    simp only [Store.getVersionS]
    rw [hframe.2.2.1]
    simp [Store.putVersionS, alookup_ainsert_self]
  refine ⟨hstored, hg, ?_⟩
  intro hup v' hv' pa hmem
  rw [hstored] at hv'
  have : MBlob.wellFormed v' = MBlob.wellFormed resp := by
    exact (Option.some.injEq _ _ ▸ hv'.symm : _)
  cases this
  exact hup pa hmem

theorem eq_dropLast_append {b : Str} {c : Char} (hl : b.getLast? = some c) :
    b = b.dropLast ++ [c] := by
  induction b with
  | nil => simp at hl
  | cons a t ih =>
    cases t with
    | nil =>
      simp at hl
      simp [hl]
    | cons d t2 =>
      rw [List.getLast?_cons_cons] at hl
      have := ih hl
      simpa using this

theorem startsOf_mirror (b x : Str) :
    startsOf b (trimOneSlash b ++ '/' :: x) = true := by
  by_cases hl : b.getLast? = some '/'
  · have hb := eq_dropLast_append hl
    rw [trimOneSlash, if_pos hl]
    calc startsOf b (b.dropLast ++ '/' :: x)
        = startsOf b ((b.dropLast ++ ['/']) ++ x) := by simp
      _ = startsOf b (b ++ x) := by rw [← hb]
      _ = true := startsOf_append b x
  · rw [trimOneSlash, if_neg hl]
    have : b ++ '/' :: x = b ++ ('/' :: x) := rfl
    rw [this, startsOf_append]

/-- C3 counterexample: an upstream manifest entry whose url field is the
empty string passes through the rewrite step unchanged, and the empty
output url does not start with the configured mirror base URL. -/
theorem c3_counterexample :
    (rewriteArchiveURLsWithH1 (s2l "http://mirror.example")
        (s2l "registry.example") (s2l "hashicorp") (s2l "aws")
        (.wellFormed { archives := [(s2l "linux_amd64",
            { url := [], hashes := [] })] })
        (emptyStore (s2l "/cache"))).1
      = .ok (.wellFormed { archives := [(s2l "linux_amd64",
          { url := [], hashes := [] })] }) ∧
    startsOf (s2l "http://mirror.example") [] = false := by
  constructor
  · rfl
  · rfl

/-- C3 (amended): in the manifest served by the rewrite step, every
archive entry whose url is non-empty has a url that starts with the
configured mirror base URL; entries with an empty upstream url keep the
empty url, which the rewrite skips. -/
theorem c3_nonempty_urls_mirror_prefixed (b h ns t : Str) (d : MBlob)
    (st : Store) (v' : VersionResponse)
    (hout : (rewriteArchiveURLsWithH1 b h ns t d st).1 = .ok (.wellFormed v')) :
    ∀ pa ∈ v'.archives, pa.2.url ≠ [] → startsOf b pa.2.url = true := by
  cases d with
  | malformed tag =>
    simp [rewriteArchiveURLsWithH1, parseMB] at hout
  | wellFormed resp =>
    rw [rewrite_ok] at hout
    have hv : v' = { archives :=
        resp.archives.map (rewriteEntryPure b h ns t st) } := by
      cases hout
      rfl
    subst hv
    intro pa hmem hne
    simp only [List.mem_map] at hmem
    obtain ⟨e, hemem, hfe⟩ := hmem
    by_cases hu : e.2.url ≠ []
    · rw [← hfe]
      simp only [rewriteEntryPure, if_pos hu, mirrorURL]
      exact startsOf_mirror b _
    · rw [← hfe] at hne
      simp only [rewriteEntryPure, if_neg hu] at hne
      simp at hu
      exact absurd hu hne

/-!
## Claims about error handling and dialect selection
-/

/-- C10: a cached manifest blob that is not valid JSON makes every
GetVersion call for that key fail with a non-not-found error — the rewrite
step parses the cached blob unconditionally — which the version handler
renders as 500, and the store is left unchanged; GetIndex by contrast
returns any cached index bytes verbatim without parsing. -/
theorem c10_malformed_cache_fails_index_verbatim (m : MirrorCfg)
    (up : Upstream) (st : Store) (h ns t v : Str) (tag : Nat)
    (hbad : st.getVersionS (h, ns, t, v) = some (.malformed tag)) :
    getVersionM m up st h ns t v = (.error .generic, st) ∧
    versionHandlerStatus (getVersionM m up st h ns t v).1 = 500 ∧
    (∀ (h2 ns2 t2 : Str) (b : Str), st.getIndexS (h2, ns2, t2) = some b →
      getIndexM up st h2 ns2 t2 = (.ok b, st)) := by
  have hg : getVersionM m up st h ns t v = (.error .generic, st) := by
    simp [getVersionM, hbad, rewriteArchiveURLsWithH1, parseMB]
  refine ⟨hg, ?_, ?_⟩
  · rw [hg]
    rfl
  · intro h2 ns2 t2 b hidx
    simp [getIndexM, hidx]

/-- C10 witness: a concrete store with a malformed cached manifest and a
cached index blob. -/
theorem c10_witness :
    getVersionM { baseURL := s2l "http://mirror.example" } upC c10st
        (s2l "registry.example") (s2l "hashicorp") (s2l "aws")
        (s2l "5.0.0") = (.error .generic, c10st) ∧
    getIndexM upC c10st (s2l "registry.example") (s2l "hashicorp")
        (s2l "aws") = (.ok (s2l "cached-index-bytes"), c10st) := by
  refine ⟨?_, ?_⟩
  · exact (c10_malformed_cache_fails_index_verbatim
      { baseURL := s2l "http://mirror.example" } upC c10st
      (s2l "registry.example") (s2l "hashicorp") (s2l "aws")
      (s2l "5.0.0") 3 (by decide)).1
  · exact (c10_malformed_cache_fails_index_verbatim
      { baseURL := s2l "http://mirror.example" } upC c10st
      (s2l "registry.example") (s2l "hashicorp") (s2l "aws")
      (s2l "5.0.0") 3 (by decide)).2.2 _ _ _ _ (by decide)

/-- C1 (code bug witness): with an empty cache — archive blob absent and
upstream-URL sidecar absent — GetArchive fails with the wrapped generic
error, never io.EOF; the archive handler maps only io.EOF to 404, so the
response is 500, not the 404 the specification states; nothing is written
to storage. -/
theorem c1_orphan_archive_gives_500 :
    (getArchiveM upC (fun _ => none) (emptyStore (s2l "/cache"))
        (s2l "registry.example/hashicorp/aws/x.zip")).1
      = .error .generic ∧
    (getArchiveM upC (fun _ => none) (emptyStore (s2l "/cache"))
        (s2l "registry.example/hashicorp/aws/x.zip")).2
      = emptyStore (s2l "/cache") ∧
    archiveHandlerStatus
      (getArchiveM upC (fun _ => none) (emptyStore (s2l "/cache"))
        (s2l "registry.example/hashicorp/aws/x.zip")).1 = 500 := by
  refine ⟨by decide, by decide, by decide⟩

/-- C2 counterexample: with a configured base URL that is not the registry
API, a request whose hostname argument is registry.terraform.io is still
sent in the registry-API request shape — the dialect does not depend on
the base URL alone. -/
theorem c2_counterexample :
    s2l "https://my-mirror.example" ≠ s2l "https://registry.terraform.io" ∧
    usesRegistryAPI (s2l "https://my-mirror.example")
      (s2l "registry.terraform.io") = true ∧
    fetchVersionURLs (s2l "https://my-mirror.example")
        (s2l "registry.terraform.io") (s2l "hashicorp") (s2l "aws")
        (s2l "5.0.0")
      ≠ [nativeVersionURL (s2l "https://my-mirror.example")
          (s2l "registry.terraform.io") (s2l "hashicorp") (s2l "aws")
          (s2l "5.0.0")] ∧
    fetchIndexURL (s2l "https://my-mirror.example")
        (s2l "registry.terraform.io") (s2l "hashicorp") (s2l "aws")
      ≠ nativeIndexURL (s2l "https://my-mirror.example")
          (s2l "registry.terraform.io") (s2l "hashicorp") (s2l "aws") := by
  refine ⟨by decide, by decide, by decide, by decide⟩

/-- C2 (amended): the dialect of every index or manifest fetch depends on
both the configured base URL and the requested hostname: the native
mirror-protocol request shape is used exactly when the hostname is not
registry.terraform.io and the base URL is not
https://registry.terraform.io; otherwise the registry-API shape is used. -/
theorem c2_dialect_by_base_and_hostname (b h ns t v : Str) :
    ((h ≠ s2l "registry.terraform.io" ∧
      b ≠ s2l "https://registry.terraform.io") →
      (fetchVersionURLs b h ns t v = [nativeVersionURL b h ns t v] ∧
       fetchIndexURL b h ns t = nativeIndexURL b h ns t)) ∧
    ((h = s2l "registry.terraform.io" ∨
      b = s2l "https://registry.terraform.io") →
      (fetchVersionURLs b h ns t v
          = platforms.map (fun pr => registryDownloadURL b ns t v pr.1 pr.2) ∧
       fetchIndexURL b h ns t = registryVersionsURL b ns t)) := by
  constructor
  · rintro ⟨h1, h2⟩
    have hreg : usesRegistryAPI b h = false := by
      simp [usesRegistryAPI, h1, h2]
    exact ⟨by simp [fetchVersionURLs, hreg], by simp [fetchIndexURL, hreg]⟩
  · intro hcase
    have hreg : usesRegistryAPI b h = true := by
      rcases hcase with h1 | h2
      · simp [usesRegistryAPI, h1]
      · simp [usesRegistryAPI, h2]
    exact ⟨by simp [fetchVersionURLs, hreg], by simp [fetchIndexURL, hreg]⟩

/-- C2 witness: a non-registry base URL with a non-registry hostname uses
the native manifest request shape. -/
theorem c2_witness :
    fetchVersionURLs (s2l "https://corp-mirror.example")
        (s2l "registry.example") (s2l "hashicorp") (s2l "aws") (s2l "5.0.0")
      = [nativeVersionURL (s2l "https://corp-mirror.example")
          (s2l "registry.example") (s2l "hashicorp") (s2l "aws")
          (s2l "5.0.0")] :=
  ((c2_dialect_by_base_and_hostname (s2l "https://corp-mirror.example")
      (s2l "registry.example") (s2l "hashicorp") (s2l "aws")
      (s2l "5.0.0")).1 ⟨by decide, by decide⟩).1

theorem registryStep_eq (probe : Str → Str → Option (Nat × Option DownloadInfo))
    (acc : List (Str × Archive)) (pr : Str × Str) :
    registryStep probe acc pr
      = acc ++ (registryProbeEntry probe pr).toList := by
  unfold registryStep registryProbeEntry
  cases hpr : probe pr.1 pr.2 with
  | none => simp
  | some sb =>
    obtain ⟨status, body⟩ := sb
    by_cases h404 : status = 404
    · simp [h404]
    · by_cases h200 : status ≠ 200
      · simp [h404, h200]
      · cases body with
        | none => simp [h404, h200]
        | some info => simp [h404, h200]

theorem registryFold_eq (probe : Str → Str → Option (Nat × Option DownloadInfo))
    (l : List (Str × Str)) :
    ∀ acc : List (Str × Archive),
      l.foldl (registryStep probe) acc
        = acc ++ l.filterMap (registryProbeEntry probe) := by
  induction l with
  | nil => intro acc; simp
  | cons pr rest ih =>
    intro acc
    rw [List.foldl_cons, ih (registryStep probe acc pr), registryStep_eq]
    cases h : registryProbeEntry probe pr with
    | none => simp [List.filterMap_cons, h]
    | some entry => simp [List.filterMap_cons, h]

/-- C7 counterexample: a platform probe answered with a 2xx status other
than 200 (here 201, with a body that parses) contributes no manifest
entry, and with every other platform absent the whole operation fails —
against the claim that every 2xx probe contributes an entry and that the
operation fails exactly when zero probes succeed. -/
theorem c7_counterexample :
    convertRegistryAPIToVersionResponse c7probe = .error .generic ∧
    c7probe (s2l "linux") (s2l "amd64")
      = some (201, some { downloadURL := s2l "https://origin.example/d.zip",
                          shasum := s2l "abc" }) := by
  refine ⟨by decide, by decide⟩

/-- C7 (amended): the registry-API manifest fetch probes exactly the
fixed 8 (os, arch) pairs; probes that error, answer 404 or any status
other than exactly 200, or whose body fails to unmarshal are skipped
without error; every probe answered 200 with a parseable body contributes
exactly one entry keyed os_arch whose url is the download_url and whose
hashes list is exactly zh: prepended to the shasum; and the operation
fails exactly when no probe contributes. -/
theorem c7_registry_fanout
    (probe : Str → Str → Option (Nat × Option DownloadInfo)) :
    convertRegistryAPIToVersionResponse probe
      = (if platforms.filterMap (registryProbeEntry probe) = []
         then .error .generic
         else .ok { archives :=
            platforms.filterMap (registryProbeEntry probe) }) := by
  unfold convertRegistryAPIToVersionResponse
  rw [registryFold_eq]
  simp

/-!
## Claim about rewrite idempotence
-/

theorem mirrorURL_ne_nil (b h ns t fn : Str) : mirrorURL b h ns t fn ≠ [] := by
  simp [mirrorURL]

theorem anyH1_append_h1 (hs : List Str) (v : Str)
    (hv : startsOf (s2l "h1:") v = true) : anyH1 (hs ++ [v]) = true := by
  simp [anyH1]
  right
  exact hv

theorem getH1S_mem {st : Store} {p : Str}
    (hne : st.getH1S p ≠ []) :
    (archivePath st.cacheDir p, st.getH1S p) ∈ st.h1s := by
  cases ha : alookup (archivePath st.cacheDir p) st.h1s with
  | none =>
    exfalso
    apply hne
    simp [Store.getH1S, ha]
  | some w =>
    have hw : st.getH1S p = w := by simp [Store.getH1S, ha]
    rw [hw]
    exact alookup_mem ha

theorem rewriteEntryPure_idem (b h ns t : Str) (st : Store)
    (hh1 : ∀ kv ∈ st.h1s, startsOf (s2l "h1:") kv.2 = true)
    (e : Str × Archive)
    (hfn : e.2.url ≠ [] →
      extractFilename (mirrorURL b h ns t (extractFilename e.2.url))
        = extractFilename e.2.url) :
    rewriteEntryPure b h ns t st (rewriteEntryPure b h ns t st e)
      = rewriteEntryPure b h ns t st e := by
  by_cases hu : e.2.url ≠ []
  · have hfn' := hfn hu
    have hne2 : mirrorURL b h ns t (extractFilename e.2.url) ≠ [] :=
      mirrorURL_ne_nil b h ns t _
    by_cases hv : st.getH1S (localArchivePath h ns t (extractFilename e.2.url)) ≠ []
        ∧ anyH1 e.2.hashes = false
    · have hpre : startsOf (s2l "h1:")
          (st.getH1S (localArchivePath h ns t (extractFilename e.2.url))) = true :=
        hh1 _ (getH1S_mem hv.1)
      have hany : anyH1 (e.2.hashes ++
          [st.getH1S (localArchivePath h ns t (extractFilename e.2.url))]) = true :=
        anyH1_append_h1 _ _ hpre
      simp only [rewriteEntryPure, if_pos hu, if_pos hv]
      simp [hne2, hfn', hany]
    · simp only [rewriteEntryPure, if_pos hu, if_neg hv]
      simp only [hne2, hfn']
      simp [hv]
  · simp [rewriteEntryPure, hu]

/-- C6 counterexample: a manifest whose archive URL has an empty final
path segment (here the origin site root) is not a fixed point of a second
rewrite application: the first rewrite produces a URL ending in a slash,
and the second application extracts a different filename from it and
changes the URL again. -/
theorem c6_counterexample :
    c6first.1 = .ok c6out1 ∧ c6second.1 ≠ .ok c6out1 := by
  refine ⟨by decide, by decide⟩

/-- C6 (amended): the rewrite step is idempotent for every manifest whose
archive URLs have a filename that re-extraction from the rewritten mirror
URL preserves (in particular every URL whose path carries a non-empty
final segment under a well-formed base URL), and every storage state whose
stored h1 sidecar values carry the h1: prefix: a second application
returns the first application's output unchanged, with no URL change and
no duplicated h1 entry. -/
theorem c6_rewrite_idempotent (b h ns t : Str) (resp : VersionResponse)
    (st : Store)
    (hh1 : ∀ kv ∈ st.h1s, startsOf (s2l "h1:") kv.2 = true)
    (hfn : ∀ pa ∈ resp.archives, pa.2.url ≠ [] →
      extractFilename (mirrorURL b h ns t (extractFilename pa.2.url))
        = extractFilename pa.2.url)
    (b1 : MBlob)
    (hfirst : (rewriteArchiveURLsWithH1 b h ns t (.wellFormed resp) st).1
      = .ok b1) :
    (rewriteArchiveURLsWithH1 b h ns t b1
        (rewriteArchiveURLsWithH1 b h ns t (.wellFormed resp) st).2).1
      = .ok b1 := by
  rw [rewrite_ok] at hfirst
  injection hfirst with hx
  subst hx
  rw [rewrite_ok]
  refine congrArg (fun l2 => Except.ok (MBlob.wellFormed ⟨l2⟩)) ?_
  show (resp.archives.map (rewriteEntryPure b h ns t st)).map
      (rewriteEntryPure b h ns t
        (rewriteArchiveURLsWithH1 b h ns t (.wellFormed resp) st).2)
      = resp.archives.map (rewriteEntryPure b h ns t st)
  have hframe := rewrite_sndFrame b h ns t (.wellFormed resp) st
  rw [List.map_map]
  refine List.map_congr_left (fun e hmem => ?_)
  have hcongr : rewriteEntryPure b h ns t
      (rewriteArchiveURLsWithH1 b h ns t (.wellFormed resp) st).2
      (rewriteEntryPure b h ns t st e)
      = rewriteEntryPure b h ns t st (rewriteEntryPure b h ns t st e) :=
    rewriteEntryPure_congr b h ns t hframe.2.1 hframe.1 _
  calc (rewriteEntryPure b h ns t
          (rewriteArchiveURLsWithH1 b h ns t (.wellFormed resp) st).2
        ∘ rewriteEntryPure b h ns t st) e
      = rewriteEntryPure b h ns t st (rewriteEntryPure b h ns t st e) := hcongr
    _ = rewriteEntryPure b h ns t st e :=
        rewriteEntryPure_idem b h ns t st hh1 e (hfn e hmem)

/-- C6 witness: a concrete well-behaved manifest and an h1-prefixed
sidecar store on which the second rewrite application returns the first
application's output. -/
theorem c6_witness :
    (rewriteArchiveURLsWithH1 (s2l "http://mirror.example")
        (s2l "registry.example") (s2l "hashicorp") (s2l "aws") c6wout
        c6wfirst.2).1 = .ok c6wout :=
  c6_rewrite_idempotent (s2l "http://mirror.example") (s2l "registry.example")
    (s2l "hashicorp") (s2l "aws") c6wresp c6wst (by decide) (by decide)
    c6wout (by decide)

/-!
## Claim: archives imply non-empty upstream sidecars
-/

theorem inv_of_eq {st st' : Store} (hinv : archiveSidecarInv st)
    (ha : st'.archives = st.archives) (hu : st'.ups = st.ups) :
    archiveSidecarInv st' := by
  intro k hk
  rw [ha] at hk
  rw [hu]
  exact hinv k hk

theorem inv_putUpstream {st : Store} (hinv : archiveSidecarInv st)
    (p : Str) {u : Str} (hu : u ≠ []) :
    archiveSidecarInv (st.putUpstreamS p u) := by
  intro k hk
  simp only [Store.putUpstreamS] at hk ⊢
  by_cases hkey : archivePath st.cacheDir p = k
  · subst hkey
    rw [alookup_ainsert_self]
    simpa using hu
  · rw [alookup_ainsert_ne _ _ hkey]
    exact hinv k hk

theorem inv_rewriteStep (b h ns t : Str) (acc : List (Str × Archive) × Store)
    (e : Str × Archive) (hinv : archiveSidecarInv acc.2) :
    archiveSidecarInv (rewriteStep b h ns t acc e).2 := by
  by_cases hu : e.2.url ≠ []
  · simp only [rewriteStep, if_pos hu]
    exact inv_putUpstream hinv _ hu
  · simp only [rewriteStep, if_neg hu]
    exact hinv

theorem inv_rewriteFold (b h ns t : Str) (l : List (Str × Archive)) :
    ∀ acc : List (Str × Archive) × Store, archiveSidecarInv acc.2 →
      archiveSidecarInv ((l.foldl (rewriteStep b h ns t) acc).2) := by
  induction l with
  | nil => intro acc hinv; simpa using hinv
  | cons e rest ih =>
    intro acc hinv
    exact ih _ (inv_rewriteStep b h ns t acc e hinv)

theorem inv_rewrite (b h ns t : Str) (d : MBlob) (st : Store)
    (hinv : archiveSidecarInv st) :
    archiveSidecarInv ((rewriteArchiveURLsWithH1 b h ns t d st).2) := by
  cases d with
  | wellFormed resp =>
    simp only [rewriteArchiveURLsWithH1, parseMB]
    exact inv_rewriteFold b h ns t resp.archives ([], st) hinv
  | malformed tag =>
    simpa [rewriteArchiveURLsWithH1, parseMB] using hinv

theorem inv_getIndex (up : Upstream) (st : Store) (h ns t : Str)
    (hinv : archiveSidecarInv st) :
    archiveSidecarInv (getIndexM up st h ns t).2 := by
  unfold getIndexM
  cases hc : st.getIndexS (h, ns, t) with
  | some b => exact hinv
  | none =>
    cases hf : up.fetchIndexU h ns t with
    | error e => exact hinv
    | ok data => exact inv_of_eq hinv rfl rfl

theorem inv_getVersion (m : MirrorCfg) (up : Upstream) (st : Store)
    (h ns t v : Str) (hinv : archiveSidecarInv st) :
    archiveSidecarInv (getVersionM m up st h ns t v).2 := by
  unfold getVersionM
  cases hc : st.getVersionS (h, ns, t, v) with
  | some cached => exact inv_rewrite _ _ _ _ _ _ hinv
  | none =>
    cases hf : up.fetchVersionU h ns t v with
    | error e => exact hinv
    | ok resp =>
      exact inv_rewrite _ _ _ _ _ _ (inv_of_eq hinv rfl rfl)

theorem inv_putArchive_after {st st1 : Store} (p : Str) (data : Blob)
    (hinv : archiveSidecarInv st)
    (h1 : st1.archives = st.archives) (h2 : st1.ups = st.ups)
    (h3 : st1.cacheDir = st.cacheDir)
    (hu : st.getUpstreamS p ≠ []) :
    archiveSidecarInv (st1.putArchiveS p data) := by
  intro k hk
  simp only [Store.putArchiveS] at hk ⊢
  rw [h2]
  by_cases hkey : archivePath st1.cacheDir p = k
  · subst hkey
    rw [h3]
    simpa [Store.getUpstreamS] using hu
  · rw [alookup_ainsert_ne _ _ hkey] at hk
    rw [h1] at hk
    exact hinv k hk

theorem inv_getArchive (up : Upstream) (comp : Blob → Option Str)
    (st : Store) (p : Str) (hinv : archiveSidecarInv st) :
    archiveSidecarInv (getArchiveM up comp st p).2 := by
  unfold getArchiveM
  cases hc : st.getArchiveS p with
  | some b => exact hinv
  | none =>
    dsimp only
    by_cases hu : st.getUpstreamS p = []
    · simp only [if_pos hu]
      exact hinv
    · simp only [if_neg hu]
      cases hf : up.fetchArchiveU (st.getUpstreamS p) with
      | error e => exact hinv
      | ok data =>
        dsimp only
        cases hcomp : comp data with
        | some h1v =>
          dsimp only
          have hput : archiveSidecarInv
              ((st.putH1S p h1v).putArchiveS p data) :=
            inv_putArchive_after p data hinv rfl rfl rfl hu
          cases hre : ((st.putH1S p h1v).putArchiveS p data).getArchiveS p
            with
          | some b2 => exact hput
          | none => exact hput
        | none =>
          dsimp only
          have hput : archiveSidecarInv (st.putArchiveS p data) :=
            inv_putArchive_after p data hinv rfl rfl rfl hu
          cases hre : (st.putArchiveS p data).getArchiveS p with
          | some b2 => exact hput
          | none => exact hput

theorem inv_reachable (st : Store) (hr : ReachableStore st) :
    archiveSidecarInv st := by
  induction hr with
  | init cd =>
    intro k hk
    simp [emptyStore, alookup] at hk
  | stepIndex up st' h ns t _ ih => exact inv_getIndex up st' h ns t ih
  | stepVersion m up st' h ns t v _ ih =>
    exact inv_getVersion m up st' h ns t v ih
  | stepArchive up comp st' p' _ ih => exact inv_getArchive up comp st' p' ih

/-- C4: in every storage state reachable from an empty cache through the
mirror's operations, every archive path whose blob is present in storage
has a non-empty upstream-URL sidecar: the sidecar is written by the
manifest rewrite before the archive body can be written, and GetArchive
itself only stores an archive after reading a non-empty sidecar. -/
theorem c4_stored_archive_has_sidecar (st : Store) (hr : ReachableStore st)
    (p : Str) (hp : (st.getArchiveS p).isSome = true) :
    st.getUpstreamS p ≠ [] := by
  have hinv : archiveSidecarInv st := inv_reachable st hr
  have := hinv (archivePath st.cacheDir p)
    (by simpa [Store.getArchiveS] using hp)
  simpa [Store.getUpstreamS] using this

/-- C4 witness: after a cold GetVersion (which writes the sidecar) and the
subsequent GetArchive fill, the cached archive's upstream sidecar is
non-empty. -/
theorem c4_witness :
    stAfterArchive.getUpstreamS
      (s2l "registry.example/hashicorp/aws/aws_5.0.0_linux_amd64.zip")
      ≠ [] :=
  c4_stored_archive_has_sidecar stAfterArchive
    (ReachableStore.stepArchive upC (fun _ => some (s2l "h1:qqq"))
      stAfterVersion
      (s2l "registry.example/hashicorp/aws/aws_5.0.0_linux_amd64.zip")
      (ReachableStore.stepVersion { baseURL := s2l "http://mirror.example" }
        upC (emptyStore (s2l "/cache")) (s2l "registry.example")
        (s2l "hashicorp") (s2l "aws") (s2l "5.0.0")
        (ReachableStore.init (s2l "/cache"))))
    (s2l "registry.example/hashicorp/aws/aws_5.0.0_linux_amd64.zip")
    (by decide)

/-!
## Lemmas: path sanitization stays under the cache root
-/

theorem hasDD_cons {c : Char} {r : Str} (h : hasDD (c :: r) = false) :
    hasDD r = false := by
  cases r with
  | nil => rfl
  | cons d r2 =>
    rw [hasDD] at h
    simp at h
    simpa using h.2

theorem hasDD_cons_not_dots {c d : Char} {r : Str}
    (h : hasDD (c :: d :: r) = false) : ¬(c = '.' ∧ d = '.') := by
  rw [hasDD] at h
  simp at h
  intro hcd
  exact h.1 hcd.1 hcd.2

theorem hasDD_tail {s : Str} (h : hasDD s = false) : hasDD s.tail = false := by
  cases s with
  | nil => rfl
  | cons c r => exact hasDD_cons h

theorem removeDD_head {b : Char} (r : Str) (hb : b ≠ '.') :
    ∃ x, removeDD (b :: r) = b :: x := by
  cases r with
  | nil => exact ⟨[], rfl⟩
  | cons c r2 =>
    rw [removeDD]
    rw [if_neg (fun hc => hb hc.1)]
    exact ⟨_, rfl⟩

theorem removeDD_noDD (s : Str) : hasDD (removeDD s) = false := by
  induction s using removeDD.induct with
  | case1 => rfl
  | case2 c => rfl
  | case3 a b r hdots ih =>
    rw [removeDD, if_pos hdots]
    exact ih
  | case4 a b r hdots ih =>
    rw [removeDD, if_neg hdots]
    by_cases ha : a = '.'
    · have hb : b ≠ '.' := fun hb => hdots ⟨ha, hb⟩
      obtain ⟨x, hx⟩ := removeDD_head r hb
      rw [hx] at ih ⊢
      rw [hasDD]
      simp [ih, hb]
    · cases hre : removeDD (b :: r) with
      | nil => rfl
      | cons y ys =>
        rw [hasDD]
        rw [hre] at ih
        simp [ha, ih]

theorem splitSlash_ne_nil (s : Str) : splitSlash s ≠ [] := by
  cases s with
  | nil => simp [splitSlash]
  | cons c rest =>
    rw [splitSlash]
    by_cases hc : c = '/'
    · simp [hc]
    · rw [if_neg hc]
      cases splitSlash rest with
      | nil => simp
      | cons e es => simp

theorem splitSlash_append (a b : Str) :
    splitSlash (a ++ '/' :: b) = splitSlash a ++ splitSlash b := by
  induction a with
  | nil => simp [splitSlash]
  | cons c a2 ih =>
    have hL : splitSlash ((c :: a2) ++ '/' :: b)
        = if c = '/' then [] :: (splitSlash a2 ++ splitSlash b)
          else
            match splitSlash a2 ++ splitSlash b with
            | [] => [[c]]
            | e :: es => (c :: e) :: es := by
      rw [List.cons_append, ← ih]
      rfl
    have hR : splitSlash (c :: a2)
        = if c = '/' then [] :: splitSlash a2
          else
            match splitSlash a2 with
            | [] => [[c]]
            | e :: es => (c :: e) :: es := rfl
    rw [hL, hR]
    by_cases hc : c = '/'
    · simp [hc]
    · rw [if_neg hc, if_neg hc]
      cases hsp : splitSlash a2 with
      | nil => exact absurd hsp (splitSlash_ne_nil a2)
      | cons e es => simp

theorem splitSlash_first_cons {rest : Str} {d : Char} {e2 : Str}
    {es : List Str} (h : splitSlash rest = (d :: e2) :: es) :
    ∃ r2, rest = d :: r2 := by
  cases rest with
  | nil => simp [splitSlash] at h
  | cons x r2 =>
    rw [splitSlash] at h
    by_cases hx : x = '/'
    · rw [if_pos hx] at h
      simp at h
    · rw [if_neg hx] at h
      cases hsp : splitSlash r2 with
      | nil => rw [hsp] at h; simp at h; exact ⟨r2, by rw [h.1.1]⟩
      | cons e es2 => rw [hsp] at h; simp at h; exact ⟨r2, by rw [h.1.1]⟩

theorem splitSlash_elems_noDD {s : Str} (h : hasDD s = false) :
    ∀ e ∈ splitSlash s, hasDD e = false := by
  induction s with
  | nil =>
    intro e he
    simp [splitSlash] at he
    rw [he]
    rfl
  | cons c rest ih =>
    have hrest : hasDD rest = false := hasDD_cons h
    intro e he
    rw [splitSlash] at he
    by_cases hc : c = '/'
    · rw [if_pos hc] at he
      rcases List.mem_cons.mp he with h1 | h2
      · rw [h1]
        rfl
      · exact ih hrest e h2
    · rw [if_neg hc] at he
      cases hsp : splitSlash rest with
      | nil => exact absurd hsp (splitSlash_ne_nil rest)
      | cons e0 es =>
        rw [hsp] at he
        rcases List.mem_cons.mp he with h1 | h2
        · subst h1
          cases he0 : e0 with
          | nil => rfl
          | cons d e2 =>
            rw [hasDD]
            have hd : hasDD e0 = false := ih hrest e0 (by simp [hsp])
            rw [he0] at hd hsp
            obtain ⟨r2, hr2⟩ := splitSlash_first_cons hsp
            subst hr2
            simp [hasDD_cons_not_dots h, hd]
        · exact ih hrest e (by simp [hsp, h2])

theorem pstep_push (rooted : Bool) (stack : List Str) {e : Str}
    (he : hasDD e = false) :
    pstep rooted stack e = stack ∨ pstep rooted stack e = e :: stack := by
  have hdd : e ≠ ['.', '.'] := by
    intro hx
    rw [hx] at he
    simp [hasDD] at he
  by_cases h0 : e = [] ∨ e = ['.']
  · left
    rw [pstep.eq_def, if_pos h0]
  · right
    rw [pstep.eq_def, if_neg h0, if_neg hdd]

theorem fold_push (rooted : Bool) (es : List Str)
    (hes : ∀ e ∈ es, hasDD e = false) :
    ∀ stack : List Str, ∃ P, es.foldl (pstep rooted) stack = P ++ stack ∧
      ∀ e ∈ P, hasDD e = false := by
  induction es with
  | nil => intro stack; exact ⟨[], by simp, by simp⟩
  | cons e rest ih =>
    intro stack
    have hrest : ∀ x ∈ rest, hasDD x = false :=
      fun x hx => hes x (List.mem_cons_of_mem _ hx)
    rcases pstep_push rooted stack (hes e (by simp)) with hp | hp
    · obtain ⟨P, hP, hPel⟩ := ih hrest stack
      exact ⟨P, by simpa [hp] using hP, hPel⟩
    · obtain ⟨P, hP, hPel⟩ := ih hrest (e :: stack)
      refine ⟨P ++ [e], ?_, ?_⟩
      · simp only [List.foldl_cons, hp, hP]
        simp
      · intro x hx
        rcases List.mem_append.mp hx with h1 | h2
        · exact hPel x h1
        · simp at h2
          rw [h2]
          exact hes e (by simp)

theorem pstep_elems_ne (rooted : Bool) (stack : List Str) (e : Str)
    (hstack : ∀ x ∈ stack, x ≠ []) :
    ∀ x ∈ pstep rooted stack e, x ≠ [] := by
  intro x hx
  by_cases h0 : e = [] ∨ e = ['.']
  · rw [pstep.eq_def, if_pos h0] at hx
    exact hstack x hx
  · by_cases hdd : e = ['.', '.']
    · rw [pstep.eq_def, if_neg h0, if_pos hdd] at hx
      cases stack with
      | nil =>
        cases rooted with
        | true => simp at hx
        | false =>
          simp at hx
          simp [hx]
      | cons top rest =>
        dsimp only at hx
        by_cases htop : top = ['.', '.']
        · rw [if_pos htop] at hx
          rcases List.mem_cons.mp hx with h1 | h2
          · simp [h1]
          · exact hstack x h2
        · rw [if_neg htop] at hx
          exact hstack x (List.mem_cons_of_mem _ hx)
    · rw [pstep.eq_def, if_neg h0, if_neg hdd] at hx
      rcases List.mem_cons.mp hx with h1 | h2
      · intro hnil
        rw [hnil] at h1
        exact h0 (Or.inl h1.symm)
      · exact hstack x h2

theorem foldl_elems_ne (rooted : Bool) (es : List Str) :
    ∀ stack : List Str, (∀ x ∈ stack, x ≠ []) →
      ∀ x ∈ es.foldl (pstep rooted) stack, x ≠ [] := by
  induction es with
  | nil => intro stack hstack; simpa using hstack
  | cons e rest ih =>
    intro stack hstack
    exact ih (pstep rooted stack e) (pstep_elems_ne rooted stack e hstack)

theorem cleanStack_elems_ne (rooted : Bool) (s : Str) :
    ∀ x ∈ cleanStack rooted s, x ≠ [] :=
  foldl_elems_ne rooted (splitSlash s) [] (by simp)

theorem joinSlash_append (A B : List Str) (hA : A ≠ []) (hB : B ≠ []) :
    joinSlash (A ++ B) = joinSlash A ++ '/' :: joinSlash B := by
  induction A with
  | nil => exact absurd rfl hA
  | cons a A2 ih =>
    cases A2 with
    | nil =>
      cases B with
      | nil => exact absurd rfl hB
      | cons b B2 => simp [joinSlash]
    | cons a2 A3 =>
      have : joinSlash ((a :: a2 :: A3) ++ B)
          = a ++ '/' :: joinSlash ((a2 :: A3) ++ B) := rfl
      rw [this, ih (by simp), joinSlash]
      simp

theorem joinSlash_ne_nil (A : List Str) (hA : A ≠ [])
    (hel : ∀ x ∈ A, x ≠ []) : joinSlash A ≠ [] := by
  cases A with
  | nil => exact absurd rfl hA
  | cons a A2 =>
    cases A2 with
    | nil => simpa [joinSlash] using hel a (by simp)
    | cons a2 A3 => simp [joinSlash]

theorem hasDD_slash_cons {X : Str} (hX : hasDD X = false) :
    hasDD ('/' :: X) = false := by
  cases X with
  | nil => rfl
  | cons d r =>
    rw [hasDD]
    simp [hX]

theorem hasDD_append_slash (a : Str) :
    ∀ r : Str, hasDD a = false → hasDD r = false →
      hasDD (a ++ '/' :: r) = false := by
  induction a with
  | nil => intro r _ hr; exact hasDD_slash_cons hr
  | cons c a2 ih =>
    intro r ha hr
    cases a2 with
    | nil =>
      show hasDD (c :: '/' :: r) = false
      rw [hasDD]
      simp [hasDD_slash_cons hr]
    | cons d a3 =>
      have hnd := hasDD_cons_not_dots ha
      have ha2 : hasDD (d :: a3) = false := hasDD_cons ha
      have hihh : hasDD (d :: (a3 ++ '/' :: r)) = false := by
        simpa using ih r ha2 hr
      show hasDD (c :: d :: (a3 ++ '/' :: r)) = false
      rw [hasDD]
      simp [hihh, hnd]

theorem joinSlash_noDD (A : List Str) (hel : ∀ x ∈ A, hasDD x = false) :
    hasDD (joinSlash A) = false := by
  induction A with
  | nil => rfl
  | cons a A2 ih =>
    cases A2 with
    | nil => simpa [joinSlash] using hel a (by simp)
    | cons a2 A3 =>
      rw [joinSlash]
      exact hasDD_append_slash a (joinSlash (a2 :: A3)) (hel a (by simp))
        (ih (fun x hx => hel x (List.mem_cons_of_mem _ hx)))

theorem rootedOf_append (a : Str) (ha : a ≠ []) (x : Str) :
    rootedOf (a ++ x) = rootedOf a := by
  cases a with
  | nil => exact absurd rfl ha
  | cons c a2 => simp [rootedOf]

theorem sanitize_noDD (p : Str) : hasDD (sanitizePath p) = false := by
  unfold sanitizePath
  have h2 : hasDD (if hasDD (clean p) then removeDD (clean p)
      else clean p) = false := by
    by_cases h : hasDD (clean p) = true
    · simp [h, removeDD_noDD]
    · simp only [Bool.not_eq_true] at h
      simp [h]
  by_cases hh : (if hasDD (clean p) then removeDD (clean p)
      else clean p).head? = some '/'
  · simp only [if_pos hh]
    exact hasDD_tail h2
  · simp only [if_neg hh]
    exact h2

theorem rebuild_append (r0 : Bool) (P RS : List Str) (hPne : P ≠ [])
    (hRSrev : RS.reverse ≠ []) (hRSel : ∀ x ∈ RS, x ≠ []) :
    rebuild r0 (P ++ RS) = rebuild r0 RS ++ '/' :: joinSlash P.reverse := by
  have hbody : joinSlash ((P ++ RS).reverse)
      = joinSlash RS.reverse ++ '/' :: joinSlash P.reverse := by
    rw [List.reverse_append]
    exact joinSlash_append _ _ hRSrev (by simpa using hPne)
  have hbodyRS_ne : joinSlash RS.reverse ≠ [] :=
    joinSlash_ne_nil _ hRSrev (fun x hx => hRSel x (by simpa using hx))
  unfold rebuild
  rw [hbody]
  cases r0 with
  | true => simp
  | false =>
    simp only [Bool.false_eq_true, if_false]
    rw [if_neg (by simp :
      ¬(joinSlash RS.reverse ++ '/' :: joinSlash P.reverse = []))]
    rw [if_neg hbodyRS_ne]

/-- C9: for every archive path argument, including paths containing
parent-directory references or leading separators, the storage layer's
sanitization yields a filesystem path that extends the cleaned cache root
by a slash-separated remainder free of parent-directory references, so
GetArchive never opens a file outside the cache root.  The cache root is
assumed non-empty with at least one real path component, as configuration
validation guarantees. -/
theorem c9_archivePath_under_root (root p : Str) (hne : root ≠ [])
    (hstack : cleanStack (rootedOf root) root ≠ []) :
    ∃ rest, archivePath root p = clean root ++ rest ∧
      (rest = [] ∨ rest.head? = some '/') ∧ hasDD rest = false := by
  have hnoDD := sanitize_noDD p
  have hap : archivePath root p = clean (root ++ '/' :: sanitizePath p) := by
    unfold archivePath join2
    rw [if_neg hne]
  have hroot : rootedOf (root ++ '/' :: sanitizePath p) = rootedOf root :=
    rootedOf_append root hne _
  obtain ⟨P, hP, hPel⟩ := fold_push (rootedOf root)
    (splitSlash (sanitizePath p)) (splitSlash_elems_noDD hnoDD)
    (cleanStack (rootedOf root) root)
  have hcs : cleanStack (rootedOf root) (root ++ '/' :: sanitizePath p)
      = P ++ cleanStack (rootedOf root) root := by
    have h1 : cleanStack (rootedOf root) (root ++ '/' :: sanitizePath p)
        = (splitSlash (sanitizePath p)).foldl (pstep (rootedOf root))
            (cleanStack (rootedOf root) root) := by
      unfold cleanStack
      rw [splitSlash_append, List.foldl_append]
    rw [h1, hP]
  have hRSel : ∀ x ∈ cleanStack (rootedOf root) root, x ≠ [] :=
    cleanStack_elems_ne _ _
  cases P with
  | nil =>
    refine ⟨[], ?_, Or.inl rfl, rfl⟩
    rw [hap]
    unfold clean
    rw [hroot, hcs]
    simp
  | cons q P2 =>
    have hXnoDD : hasDD (joinSlash ((q :: P2).reverse)) = false :=
      joinSlash_noDD _ (fun x hx => hPel x (List.mem_reverse.mp hx))
    refine ⟨'/' :: joinSlash ((q :: P2).reverse), ?_, Or.inr rfl,
      hasDD_slash_cons hXnoDD⟩
    rw [hap]
    unfold clean
    rw [hroot, hcs]
    exact rebuild_append (rootedOf root) (q :: P2)
      (cleanStack (rootedOf root) root) (by simp) (by simpa using hstack)
      hRSel

/-- C9 witness: a traversal attempt against a real cache root resolves to
a path under the root. -/
theorem c9_witness :
    ∃ rest, archivePath (s2l "/var/cache/speculum") (s2l "../../etc/passwd")
        = clean (s2l "/var/cache/speculum") ++ rest ∧
      (rest = [] ∨ rest.head? = some '/') ∧ hasDD rest = false :=
  c9_archivePath_under_root (s2l "/var/cache/speculum")
    (s2l "../../etc/passwd") (by decide) (by decide)

/-- C3 witness: a concrete rewritten archive URL starts with the
configured mirror base URL. -/
theorem c3_witness :
    startsOf (s2l "http://mirror.example")
      (s2l "http://mirror.example/registry.example/hashicorp/aws/aws_5.0.0_linux_amd64.zip")
      = true :=
  c3_nonempty_urls_mirror_prefixed (s2l "http://mirror.example")
    (s2l "registry.example") (s2l "hashicorp") (s2l "aws")
    (.wellFormed { archives := [(s2l "linux_amd64",
      { url := s2l "https://origin.example/aws_5.0.0_linux_amd64.zip",
        hashes := [s2l "zh:abc"] })] })
    (emptyStore (s2l "/cache"))
    { archives := [(s2l "linux_amd64",
      { url := s2l "http://mirror.example/registry.example/hashicorp/aws/aws_5.0.0_linux_amd64.zip",
        hashes := [s2l "zh:abc"] })] }
    (by decide)
    (s2l "linux_amd64",
      { url := s2l "http://mirror.example/registry.example/hashicorp/aws/aws_5.0.0_linux_amd64.zip",
        hashes := [s2l "zh:abc"] })
    (by decide) (by decide)

/-- C5 witness: after a cold GetVersion against the concrete upstream, the
stored manifest blob is exactly the raw upstream response. -/
theorem c5_witness :
    (getVersionM { baseURL := s2l "http://mirror.example" } upC
        (emptyStore (s2l "/cache")) (s2l "registry.example")
        (s2l "hashicorp") (s2l "aws") (s2l "5.0.0")).2.getVersionS
      (s2l "registry.example", s2l "hashicorp", s2l "aws", s2l "5.0.0")
      = some (.wellFormed { archives := [(s2l "linux_amd64",
          { url := s2l "https://origin.example/aws_5.0.0_linux_amd64.zip",
            hashes := [s2l "zh:abc"] })] }) :=
  (c5_store_raw_rewrite_on_read { baseURL := s2l "http://mirror.example" }
    upC (emptyStore (s2l "/cache")) (s2l "registry.example")
    (s2l "hashicorp") (s2l "aws") (s2l "5.0.0")
    { archives := [(s2l "linux_amd64",
      { url := s2l "https://origin.example/aws_5.0.0_linux_amd64.zip",
        hashes := [s2l "zh:abc"] })] }
    (by decide) (by decide)).1
